import Mathlib

/- Verification of the web archiver backend: a shallow embedding of
   backend/src/services/archiver.js (with the record bookkeeping of storage.js).
   Path strings are modelled at character-list level so that the POSIX behaviour of
   the path helpers used by the code (dirname, basename, extname, join) is explicit;
   network effects are modelled by outcome oracles carried in environment records. -/

/-- Crawl depth cap: ArchiverService.constructor sets maxDepth to 3. -/
def maxDepth : Nat := 3

/-- Page cap per job: ArchiverService.constructor sets maxPages to 50. -/
def maxPages : Nat := 50

/-- Characters after the last slash: the final path segment. -/
def afterLastSlashL (l : List Char) : List Char :=
  (l.reverse.takeWhile (fun c => c ≠ '/')).reverse

/-- Extension of a path basename, mirroring Node path extname restricted to the part
    after the last slash: empty when there is no dot, the only dot is the leading
    character, or the segment is the parent-directory segment; otherwise from the
    last dot to the end. -/
def extOfBase (base : List Char) : List Char :=
  if base = ['.', '.'] then []
  else if base.length ≤ (base.reverse.takeWhile (fun c => c ≠ '.')).length + 1 then []
  else '.' :: (base.reverse.takeWhile (fun c => c ≠ '.')).reverse

/-- Node path extname. -/
def extnameL (l : List Char) : List Char := extOfBase (afterLastSlashL l)

/-- Node path basename without a suffix argument: trailing slashes are ignored and
    the last segment is returned. -/
def basenameL (l : List Char) : List Char :=
  afterLastSlashL ((l.reverse.dropWhile (fun c => c = '/')).reverse)

/-- Node path basename with an extension argument: the extension is stripped when it
    is a proper suffix of the basename. -/
def stripExtL (filename ext : List Char) : List Char :=
  if ext ≠ [] ∧ ext.length < filename.length ∧ ext.isSuffixOf filename then
    filename.take (filename.length - ext.length)
  else filename

/-- Node path dirname via its scanning algorithm: skip trailing slashes, skip the
    final segment, and cut just before it; a slash found at index zero does not
    count. -/
def dirnameL (l : List Char) : List Char :=
  if l = [] then ['.']
  else
    let hasRoot := l.head? = some '/'
    let r := (l.reverse.dropWhile (fun c => c = '/')).dropWhile (fun c => c ≠ '/')
    if r.length ≤ 1 then (if hasRoot then ['/'] else ['.'])
    else if hasRoot ∧ r.length = 2 then ['/', '/']
    else l.take (r.length - 1)

/-- Split a character list on slash separators. -/
def splitOnSlash : List Char → List (List Char)
  | [] => [[]]
  | c :: rest =>
    match splitOnSlash rest with
    | [] => [[]]
    | g :: gs => if c = '/' then [] :: g :: gs else (c :: g) :: gs

/-- One step of Node path normalization over split segments: empty and
    current-directory segments are dropped, a parent-directory segment pops the
    previous segment when possible. -/
def normStep (acc : List (List Char)) (c : List Char) : List (List Char) :=
  if c = [] ∨ c = ['.'] then acc
  else if c = ['.', '.'] then
    match acc with
    | [] => [['.', '.']]
    | top :: rest => if top = ['.', '.'] then c :: acc else rest
  else c :: acc

/-- Join segments with slash separators. -/
def joinComps : List (List Char) → List Char
  | [] => []
  | [c] => c
  | c :: c2 :: cs => c ++ '/' :: joinComps (c2 :: cs)

/-- Nonempty join arguments joined with single slashes, before normalization. -/
def joinedSegs (segs : List (List Char)) : List Char :=
  joinComps (segs.filter (fun s => s ≠ []))

/-- The normalized segments joined back together (repeated slashes collapsed, dot
    segments resolved). -/
def normalizedJoin (segs : List (List Char)) : List Char :=
  joinComps (((splitOnSlash (joinedSegs segs)).foldl normStep []).reverse)

/-- The normalized join with a root slash restored when the raw join was rooted. -/
def joinBase2 (segs : List (List Char)) : List Char :=
  if (joinedSegs segs).head? = some '/' then '/' :: normalizedJoin segs
  else normalizedJoin segs

/-- The normalized join with one trailing slash restored when the raw join ended in
    a slash. -/
def joinBase3 (segs : List (List Char)) : List Char :=
  if (joinedSegs segs).getLast? = some '/' ∧ (joinBase2 segs).getLast? ≠ some '/' then
    joinBase2 segs ++ ['/']
  else joinBase2 segs

/-- Node path join on POSIX paths: drop empty arguments, join with slashes, then
    normalize (collapse repeated slashes, resolve dot segments, keep the root and
    one trailing slash).  The backslash replacement in the source is a no-op on
    POSIX paths. -/
def joinL (segs : List (List Char)) : List Char :=
  if joinedSegs segs = [] then ['.']
  else if joinBase3 segs = [] then
    (if (joinedSegs segs).head? = some '/' then ['/'] else ['.'])
  else joinBase3 segs

/-- Base64 alphabet used by Buffer encoding. -/
def b64Alphabet : List Char :=
  "ABCDEFGHIJKLMNOPQRSTUVWXYZabcdefghijklmnopqrstuvwxyz0123456789+/".toList

/-- Character of the base64 alphabet at a six-bit value. -/
def b64Char (n : Nat) : Char := b64Alphabet.getD n 'A'

/-- Standard base64 encoding of a byte list, with padding. -/
def base64EncodeBytes : List Nat → List Char
  | [] => []
  | [a] => [b64Char (a / 4), b64Char (a % 4 * 16), '=', '=']
  | [a, b] => [b64Char (a / 4), b64Char (a % 4 * 16 + b / 16), b64Char (b % 16 * 4), '=']
  | a :: b :: c :: rest =>
    b64Char (a / 4) :: b64Char (a % 4 * 16 + b / 16) :: b64Char (b % 16 * 4 + c / 64) ::
      b64Char (c % 64) :: base64EncodeBytes rest

/-- Bytes of a query string as Buffer.from produces them; the queries handled here
    are ASCII, where UTF-8 bytes and code points agree. -/
def strBytesL (l : List Char) : List Nat := l.map Char.toNat

/-- The short query hash of getAssetPath: base64 of the query with slash, plus and
    equals characters removed, truncated to 8 characters. -/
def queryHashL (search : List Char) : List Char :=
  ((base64EncodeBytes (strBytesL search)).filter
    (fun c => ¬(c = '/' ∨ c = '+' ∨ c = '='))).take 8

/-- A parsed WHATWG URL as the code observes it; the URL constructor is a platform
    library and is modelled as already applied.  search is empty or starts with a
    question mark. -/
structure Url where
  href : String
  hostname : String
  pathname : String
  search : String
deriving DecidableEq, Repr

/-- ArchiverService.getAssetPath (archiver.js lines 424 to 441) at character-list
    level, on the pathname and search of the parsed asset URL: with a query, the
    query hash is folded into the filename before the extension; otherwise the
    pathname goes under the assets root unchanged. -/
def getAssetPathL (pathname search : List Char) : List Char :=
  if search ≠ [] then
    joinL ["assets".toList, dirnameL pathname,
      stripExtL (basenameL pathname) (extnameL (basenameL pathname)) ++
        '_' :: (queryHashL search ++ extnameL (basenameL pathname))]
  else
    joinL ["assets".toList, pathname]

/-- ArchiverService.getAssetPath on a parsed URL. -/
def getAssetPath (u : Url) : String :=
  String.mk (getAssetPathL u.pathname.toList u.search.toList)

/-- First pathname mutation of getRelativePath: a path ending with a slash gains
    index.html (archiver.js lines 406 to 408). -/
def relStep1 (p : List Char) : List Char :=
  if p.getLast? = some '/' then p ++ "index.html".toList else p

/-- Second pathname mutation of getRelativePath: a path without an extension gains
    .html (archiver.js lines 411 to 413). -/
def relStep2 (p : List Char) : List Char :=
  if extnameL (relStep1 p) = [] then relStep1 p ++ ".html".toList else relStep1 p

/-- ArchiverService.getRelativePath (archiver.js lines 396 to 417) at
    character-list level: the root maps to index.html, then the two mutations run
    and the leading slash is stripped. -/
def getRelativePathL (p : List Char) : List Char :=
  if p = ['/'] then "index.html".toList
  else if (relStep2 p).head? = some '/' then (relStep2 p).drop 1 else relStep2 p

/-- ArchiverService.getRelativePath on a parsed URL; only the pathname is used, the
    query and fragment are ignored by the code. -/
def getRelativePath (u : Url) : String :=
  String.mk (getRelativePathL u.pathname.toList)

/-- Result of downloadWithRetry: outcome, number of attempts made, and the backoff
    waits performed between attempts. -/
structure RetryRun where
  result : Option Unit
  attempts : Nat
  waits : List Nat
deriving DecidableEq, Repr

/-- Backoff delay before retrying after a failed attempt (archiver.js line 463). -/
def backoffDelay (attempt : Nat) : Nat := min (1000 * 2 ^ (attempt - 1)) 5000

/-- The retry loop of downloadWithRetry (archiver.js lines 450 to 467); out gives
    the outcome of each numbered attempt; recursion is on remaining attempts. -/
def downloadWithRetryAux (out : Nat → Option Unit) (attempt : Nat) : Nat → RetryRun
  | 0 => { result := none, attempts := 0, waits := [] }
  | rem + 1 =>
    match out attempt with
    | some _ => { result := some (), attempts := 1, waits := [] }
    | none =>
      if rem = 0 then { result := none, attempts := 1, waits := [] }
      else
        let r := downloadWithRetryAux out (attempt + 1) rem
        { result := r.result, attempts := r.attempts + 1,
          waits := backoffDelay attempt :: r.waits }

/-- ArchiverService.downloadWithRetry; every call site uses the default of 3
    retries. -/
def downloadWithRetry (out : Nat → Option Unit) (retries : Nat) : RetryRun :=
  downloadWithRetryAux out 1 retries

/-- Environment of one downloadAndReplaceAsset call: the resolution of the asset URL
    against the page URL (none when the URL constructor throws), the outcome of each
    download attempt, and the local paths already present in the job directory. -/
structure AssetEnv where
  resolve : Option Url
  download : Nat → Option Unit
  existing : List String

/-- Result of downloadAndReplaceAsset: the final value of the rewritten attribute
    and the local path saved by storageService.saveAsset, if any. -/
structure AssetResult where
  attr : String
  savedPath : Option String
deriving DecidableEq, Repr

/-- ArchiverService.downloadAndReplaceAsset (archiver.js lines 347 to 389).  Every
    throw inside the body is caught at line 386, leaving the attribute untouched. -/
def downloadAndReplaceAsset (pageHost assetUrl : String) (aenv : AssetEnv) :
    AssetResult :=
  match aenv.resolve with
  | none => { attr := assetUrl, savedPath := none }
  | some abs =>
    if abs.hostname ≠ pageHost then { attr := assetUrl, savedPath := none }
    else
      let relativePath := getAssetPath abs
      if relativePath ∈ aenv.existing then { attr := relativePath, savedPath := none }
      else
        match (downloadWithRetry aenv.download 3).result with
        | some _ => { attr := relativePath, savedPath := some relativePath }
        | none => { attr := assetUrl, savedPath := none }

/-- ArchiverService.processPageContent (archiver.js lines 302 to 336): each image,
    stylesheet and script reference goes through downloadAndReplaceAsset;
    Promise.allSettled makes the elements independent of one another. -/
def processPageContentM (pageHost : String) (refs : List (String × AssetEnv)) :
    List AssetResult :=
  refs.map (fun r => downloadAndReplaceAsset pageHost r.1 r.2)

/-- Environment of archiving one page: whether the rendering path can serialize the
    page, the outcome of each fallback HTTP attempt for the page body, the page
    host, the asset references found in the markup, and the anchor links found. -/
structure PageEnv where
  render : Bool
  http : Nat → Option Unit
  host : String
  refs : List (String × AssetEnv)
  links : List String

/-- Observable run of archiving one page: attempt counts, waits, whether a page
    record was saved, the rewritten asset attributes, the links returned to the
    orchestrator, and whether an exception escapes to the caller. -/
structure PageRun where
  renderAttempts : Nat
  httpAttempts : Nat
  waits : List Nat
  saved : Bool
  attrs : List String
  links : List String
  errored : Bool
deriving DecidableEq, Repr

/-- ArchiverService.archivePageWithPuppeteer (archiver.js lines 206 to 248): a
    single navigation with no retry; failure throws to the caller. -/
def archivePageWithPuppeteerM (env : PageEnv) : PageRun :=
  if env.render then
    { renderAttempts := 1, httpAttempts := 0, waits := [], saved := true,
      attrs := (processPageContentM env.host env.refs).map AssetResult.attr,
      links := env.links, errored := false }
  else
    { renderAttempts := 1, httpAttempts := 0, waits := [], saved := false,
      attrs := [], links := [], errored := true }

/-- ArchiverService.archivePageWithHttp (archiver.js lines 253 to 293): page body
    via downloadWithRetry; the catch at line 289 swallows every failure and returns
    an empty link list. -/
def archivePageWithHttpM (env : PageEnv) : PageRun :=
  let r := downloadWithRetry env.http 3
  match r.result with
  | some _ =>
    { renderAttempts := 0, httpAttempts := r.attempts, waits := r.waits,
      saved := true,
      attrs := (processPageContentM env.host env.refs).map AssetResult.attr,
      links := env.links, errored := false }
  | none =>
    { renderAttempts := 0, httpAttempts := r.attempts, waits := r.waits,
      saved := false, attrs := [], links := [], errored := false }

/-- ArchiverService.archivePage (archiver.js lines 189 to 201): with a browser, one
    Puppeteer try falling back to HTTP on failure; without a browser, HTTP only. -/
def archivePageM (env : PageEnv) (browserAvailable : Bool) : PageRun :=
  if browserAvailable then
    let p := archivePageWithPuppeteerM env
    if p.errored then
      let h := archivePageWithHttpM env
      { h with renderAttempts := p.renderAttempts }
    else p
  else archivePageWithHttpM env

/-- Per-URL outcome of archivePage as the orchestrator observes it: none when the
    page could not be archived (no page record, no links), otherwise the asset paths
    saved for the page and the links extracted from its markup. -/
structure PageFetch where
  assets : List String
  links : List String
deriving DecidableEq, Repr

/-- Environment of one crawl: the outcome of archiving each URL, and the resolution
    of each (link, base) pair by the URL constructor (none when it throws). -/
structure CrawlEnv where
  fetch : String → Option PageFetch
  resolve : String → String → Option Url

/-- A queue entry of the traversal loop. -/
structure QEntry where
  url : String
  depth : Nat
deriving DecidableEq, Repr

/-- State returned by the traversal loop: the visited set in insertion order, the
    processed entries in order, and the URLs whose page record was saved. -/
structure CrawlResult where
  visited : List String
  trace : List QEntry
  pages : List String
deriving DecidableEq, Repr

/-- Link enqueueing of archiveWebsite (archiver.js lines 137 to 149): resolve each
    link against the page URL and push same-domain links not yet visited, at depth
    plus one. -/
def enqueueLinks (env : CrawlEnv) (domain pageUrl : String) (depth : Nat)
    (visited : List String) (links : List String) : List QEntry :=
  links.foldl
    (fun acc link =>
      match env.resolve link pageUrl with
      | none => acc
      | some r =>
        if r.hostname = domain ∧ r.href ∉ visited then acc ++ [⟨r.href, depth + 1⟩]
        else acc)
    []

/-- The main traversal loop of archiveWebsite (archiver.js lines 121 to 158), with
    fuel making the recursion structural; each iteration consumes one fuel. -/
def crawlLoop (env : CrawlEnv) (domain : String) :
    Nat → List QEntry → List String → List QEntry → List String → CrawlResult
  | 0, _, visited, trace, pages => ⟨visited, trace, pages⟩
  | _ + 1, [], visited, trace, pages => ⟨visited, trace, pages⟩
  | fuel + 1, e :: rest, visited, trace, pages =>
    if maxPages ≤ visited.length then ⟨visited, trace, pages⟩
    else if e.url ∈ visited ∨ maxDepth < e.depth then
      crawlLoop env domain fuel rest visited trace pages
    else
      match env.fetch e.url with
      | none => crawlLoop env domain fuel rest (visited ++ [e.url]) (trace ++ [e]) pages
      | some pf =>
        let rest2 :=
          if e.depth < maxDepth then
            rest ++ enqueueLinks env domain e.url e.depth (visited ++ [e.url]) pf.links
          else rest
        crawlLoop env domain fuel rest2 (visited ++ [e.url]) (trace ++ [e])
          (pages ++ [e.url])

/-- ArchiverService.archiveWebsite traversal (archiver.js lines 79 to 158): queue
    seeded with the start URL at depth 0 and an empty visited set; the domain is the
    hostname of the start URL. -/
def archiveWebsite (env : CrawlEnv) (startUrl domain : String) (fuel : Nat) :
    CrawlResult :=
  crawlLoop env domain fuel [⟨startUrl, 0⟩] [] [] []

/-- Job status values of the metadata store. -/
inductive Status where
  | pending
  | processing
  | completed
  | failed
deriving DecidableEq, Repr

/-- The archive record at completion (archiver.js lines 160 to 165): status
    completed, pagesArchived set to the visited-set size, pages as appended by
    storage savePage. -/
structure JobRecord where
  status : Status
  pagesArchived : Nat
  pages : List String
deriving DecidableEq, Repr

/-- The record written when the traversal loop exits normally. -/
def completedRecord (env : CrawlEnv) (startUrl domain : String) (fuel : Nat) :
    JobRecord :=
  let r := archiveWebsite env startUrl domain fuel
  { status := .completed, pagesArchived := r.visited.length, pages := r.pages }

/-- Observable mutations of one job record in the metadata store. -/
inductive JobEvent where
  | setStatus (s : Status)
  | pageRecord (url : String)
  | assetRecord (path : String)
deriving DecidableEq, Repr

/-- Records appended while archiving one page: its saved assets, then its page
    record (storage.js saveAsset and savePage). -/
def recordsOf (env : CrawlEnv) (u : String) : List JobEvent :=
  match env.fetch u with
  | none => []
  | some pf => pf.assets.map JobEvent.assetRecord ++ [JobEvent.pageRecord u]

/-- Concatenated records of a list of archived pages, in order. -/
def concatRecords (env : CrawlEnv) : List String → List JobEvent
  | [] => []
  | u :: us => recordsOf env u ++ concatRecords env us

/-- Terminal status of a job: completed on normal loop exit, failed when an
    orchestration fault escapes the loop (archiver.js lines 160 to 174). -/
def terminalOf : Option Nat → Status
  | none => .completed
  | some _ => .failed

/-- The ordered mutations a job makes to its record in the fault-free-teardown
    case: pending at creation (storage.js createArchive), processing at archiver.js
    line 88, the page and asset records of the loop, and exactly one terminal
    status.  fault as some k models an orchestration fault escaping the loop after
    k archived pages.  This is the restriction of jobEventsFull below to a
    processing write and a browser teardown that both succeed. -/
def jobEvents (env : CrawlEnv) (startUrl domain : String) (fuel : Nat)
    (fault : Option Nat) : List JobEvent :=
  let r := archiveWebsite env startUrl domain fuel
  let mid :=
    match fault with
    | none => concatRecords env r.pages
    | some k => concatRecords env (r.pages.take k)
  JobEvent.setStatus .pending :: JobEvent.setStatus .processing ::
    (mid ++ [JobEvent.setStatus (terminalOf fault)])

/-- Status values written to the record, in event order. -/
def statusesOf (l : List JobEvent) : List Status :=
  l.filterMap (fun e => match e with | .setStatus s => some s | _ => none)

/-- Orchestration-level fault switches of one job run.  processingFails: the
    updateArchive call that writes processing (archiver.js line 88) throws, so the
    catch at line 169 writes failed before the browser is ever launched.
    loopFault as some k: an exception escapes the traversal after k archived pages
    and the catch at line 169 writes failed.  closeFails: a browser was launched
    and its close call in the finally block (line 177) rejects after the terminal
    write; the rejection escapes archiveWebsite and the catch installed by
    startArchiving (lines 55 to 61) writes failed once more. -/
structure OrchFaults where
  processingFails : Bool
  loopFault : Option Nat
  closeFails : Bool
deriving DecidableEq, Repr

/-- The ordered record mutations of one job under the full fault model (the writes
    performed inside catch handlers are modelled as succeeding).  When the
    processing write throws, the browser is not yet launched, so the finally block
    is a no-op and the sequence is pending then failed.  Otherwise the loop runs,
    the terminal status is written, and a rejecting browser teardown makes the
    startArchiving catch write failed one more time, after the terminal status. -/
def jobEventsFull (env : CrawlEnv) (startUrl domain : String) (fuel : Nat)
    (faults : OrchFaults) : List JobEvent :=
  if faults.processingFails then
    [JobEvent.setStatus Status.pending, JobEvent.setStatus Status.failed]
  else
    JobEvent.setStatus Status.pending :: JobEvent.setStatus Status.processing ::
      ((match faults.loopFault with
        | none => concatRecords env (archiveWebsite env startUrl domain fuel).pages
        | some k =>
          concatRecords env ((archiveWebsite env startUrl domain fuel).pages.take k)) ++
        [JobEvent.setStatus (terminalOf faults.loopFault)] ++
        (if faults.closeFails then [JobEvent.setStatus Status.failed] else []))

/-- Crawl environment in which every page fetch fails (used for the pagesArchived
    counterexample). -/
def envC2fail : CrawlEnv := { fetch := fun _ => none, resolve := fun _ _ => none }

/-- Crawl environment in which every page fetch succeeds with no assets or links. -/
def envC2ok : CrawlEnv :=
  { fetch := fun _ => some ⟨[], []⟩, resolve := fun _ _ => none }

/-- Crawl environment in which every page fetch fails (used for the visited-set
    witness). -/
def envC9fail : CrawlEnv := { fetch := fun _ => none, resolve := fun _ _ => none }

/-- Crawl environment in which every page fetch succeeds with no assets or links
    (used for the status-transition counterexample). -/
def envC5 : CrawlEnv :=
  { fetch := fun _ => some ⟨[], []⟩, resolve := fun _ _ => none }

/-- Fault pattern: loop and stores fine, but the launched browser rejects on
    close. -/
def faultsClose : OrchFaults :=
  { processingFails := false, loopFault := none, closeFails := true }

/-- Fault pattern: the processing write itself throws. -/
def faultsProcessing : OrchFaults :=
  { processingFails := true, loopFault := none, closeFails := false }

/-- Page environment whose rendering path and every HTTP attempt fail. -/
def pageEnvC3 : PageEnv :=
  { render := false, http := fun _ => none, host := "h", refs := [], links := [] }

/-- Asset URL on the page host, for the failed-asset scenario. -/
def urlC6 : Url :=
  { href := "http://h/x.png", hostname := "h", pathname := "/x.png", search := "" }

/-- Asset environment whose every download attempt fails. -/
def aenvC6 : AssetEnv :=
  { resolve := some urlC6, download := fun _ => none, existing := [] }

/-- Page environment containing one asset whose downloads all fail, while the page
    body itself is fetched successfully. -/
def pageEnvC6 : PageEnv :=
  { render := false, http := fun _ => some (), host := "h",
    refs := [("http://h/x.png", aenvC6)], links := [] }

/-- Asset URL on a host different from the page host. -/
def urlC7 : Url :=
  { href := "http://cdn.other/y.css", hostname := "cdn.other", pathname := "/y.css",
    search := "" }

/-- Asset environment resolving to a different host. -/
def aenvC7 : AssetEnv :=
  { resolve := some urlC7, download := fun _ => some (), existing := [] }

/-- Page environment whose every HTTP attempt fails, without a rendering path. -/
def pageEnvC10 : PageEnv :=
  { render := false, http := fun _ => none, host := "h", refs := [], links := [] }

/-- Two asset URLs identical except for their query strings, whose 8-character
    base64 prefixes coincide. -/
def urlQ1 : Url :=
  { href := "http://ex.test/img/a.png?aaaaaaX", hostname := "ex.test",
    pathname := "/img/a.png", search := "?aaaaaaX" }

/-- Second asset URL of the colliding pair. -/
def urlQ2 : Url :=
  { href := "http://ex.test/img/a.png?aaaaaaY", hostname := "ex.test",
    pathname := "/img/a.png", search := "?aaaaaaY" }

/-- Asset URL with a version query. -/
def urlQv1 : Url :=
  { href := "http://ex.test/a.png?v=1", hostname := "ex.test",
    pathname := "/a.png", search := "?v=1" }

/-- Asset URL identical to the previous one except for the version query. -/
def urlQv2 : Url :=
  { href := "http://ex.test/a.png?v=2", hostname := "ex.test",
    pathname := "/a.png", search := "?v=2" }

/-- Page URL without a trailing slash. -/
def urlAbout : Url :=
  { href := "https://ex.test/about", hostname := "ex.test", pathname := "/about",
    search := "" }

/-- The same page URL with a trailing slash. -/
def urlAboutSlash : Url :=
  { href := "https://ex.test/about/", hostname := "ex.test", pathname := "/about/",
    search := "" }

/-- Page URL whose path lacks an extension. -/
def urlA : Url :=
  { href := "https://ex.test/a", hostname := "ex.test", pathname := "/a",
    search := "" }

/-- A distinct page URL colliding with the previous one. -/
def urlAHtml : Url :=
  { href := "https://ex.test/a.html", hostname := "ex.test", pathname := "/a.html",
    search := "" }

/-- Invariant of the traversal loop: the visited set lists exactly the processed
    URLs in order, without duplicates, within the page cap; processed depths are
    within the depth cap; and the saved pages are exactly the visited URLs whose
    fetch succeeded. -/
def CrawlInv (env : CrawlEnv) (r : CrawlResult) : Prop :=
  r.visited = r.trace.map QEntry.url ∧
  r.visited.Nodup ∧
  r.visited.length ≤ maxPages ∧
  (∀ e ∈ r.trace, e.depth ≤ maxDepth) ∧
  r.pages = r.visited.filter (fun u => (env.fetch u).isSome)

/-- Well-formed pathname of a parsed URL: rooted, with at least one segment, and
    every segment nonempty and different from the current-directory and
    parent-directory forms, as WHATWG URL path normalization guarantees for
    ordinary URLs. -/
def WfPathname (p : List Char) : Prop :=
  p.head? = some '/' ∧
  (splitOnSlash p).tail ≠ [] ∧
  ∀ c ∈ (splitOnSlash p).tail, c ≠ [] ∧ c ≠ ['.'] ∧ c ≠ ['.', '.']

theorem crawlLoop_invariant (env : CrawlEnv) (domain : String) :
    ∀ (fuel : Nat) (queue : List QEntry) (visited : List String) (trace : List QEntry)
      (pages : List String),
      visited = trace.map QEntry.url →
      visited.Nodup →
      visited.length ≤ maxPages →
      (∀ e ∈ trace, e.depth ≤ maxDepth) →
      pages = visited.filter (fun u => (env.fetch u).isSome) →
      CrawlInv env (crawlLoop env domain fuel queue visited trace pages) := by
  intro fuel
  induction fuel with
  | zero =>
    intro queue visited trace pages h1 h2 h3 h4 h5
    exact ⟨h1, h2, h3, h4, h5⟩
  | succ n ih =>
    intro queue visited trace pages h1 h2 h3 h4 h5
    cases queue with
    | nil => exact ⟨h1, h2, h3, h4, h5⟩
    | cons e rest =>
      simp only [crawlLoop]
      by_cases hcap : maxPages ≤ visited.length
      · simp only [if_pos hcap]
        exact ⟨h1, h2, h3, h4, h5⟩
      · simp only [if_neg hcap]
        by_cases hskip : e.url ∈ visited ∨ maxDepth < e.depth
        · simp only [if_pos hskip]
          exact ih rest visited trace pages h1 h2 h3 h4 h5
        · simp only [if_neg hskip]
          push_neg at hskip
          obtain ⟨hnotvis, hdepth⟩ := hskip
          have hmap : visited ++ [e.url] = (trace ++ [e]).map QEntry.url := by
            simp [List.map_append, h1]
          have hnodup : (visited ++ [e.url]).Nodup := by
            simp [List.nodup_append, h2, hnotvis]
          have hlen : (visited ++ [e.url]).length ≤ maxPages := by
            have := Nat.lt_of_not_le hcap
            simp only [List.length_append, List.length_cons, List.length_nil]
            omega
          have hdepths : ∀ x ∈ trace ++ [e], x.depth ≤ maxDepth := by
            intro x hx
            rcases List.mem_append.mp hx with hx | hx
            · exact h4 x hx
            · simp only [List.mem_singleton] at hx
              subst hx
              exact hdepth
          cases hf : env.fetch e.url with
          | none =>
            have hpages : pages = (visited ++ [e.url]).filter
                (fun u => (env.fetch u).isSome) := by
              rw [List.filter_append, ← h5]
              simp [hf]
            exact ih rest (visited ++ [e.url]) (trace ++ [e]) pages hmap hnodup hlen
              hdepths hpages
          | some pf =>
            have hpages : pages ++ [e.url] = (visited ++ [e.url]).filter
                (fun u => (env.fetch u).isSome) := by
              rw [List.filter_append, ← h5]
              simp [hf]
            exact ih _ (visited ++ [e.url]) (trace ++ [e]) (pages ++ [e.url]) hmap
              hnodup hlen hdepths hpages

/-- Claim C1: for every job, the traversal loop never processes the same URL twice, never
    processes more pages than the page cap of 50, and never processes a queue entry
    whose depth exceeds the depth cap of 3; the visited set is exactly the processed
    URLs. -/
theorem traversal_bounds (env : CrawlEnv) (startUrl domain : String) (fuel : Nat) :
    (archiveWebsite env startUrl domain fuel).visited =
      (archiveWebsite env startUrl domain fuel).trace.map QEntry.url ∧
    ((archiveWebsite env startUrl domain fuel).trace.map QEntry.url).Nodup ∧
    (archiveWebsite env startUrl domain fuel).trace.length ≤ maxPages ∧
    ∀ e ∈ (archiveWebsite env startUrl domain fuel).trace, e.depth ≤ maxDepth := by
  simp only [archiveWebsite]
  obtain ⟨h1, h2, h3, h4, h5⟩ :=
    crawlLoop_invariant env domain fuel [⟨startUrl, 0⟩] [] [] [] rfl (by simp)
      (by simp) (by simp) rfl
  refine ⟨h1, h1 ▸ h2, ?_, h4⟩
  have hlen : (crawlLoop env domain fuel [⟨startUrl, 0⟩] [] [] []).trace.length =
      (crawlLoop env domain fuel [⟨startUrl, 0⟩] [] [] []).visited.length := by
    rw [h1, List.length_map]
  omega

theorem downloadWithRetryAux_attempts_le (out : Nat → Option Unit) :
    ∀ (rem attempt : Nat), (downloadWithRetryAux out attempt rem).attempts ≤ rem := by
  intro rem
  induction rem with
  | zero => intro attempt; simp [downloadWithRetryAux]
  | succ n ih =>
    intro attempt
    simp only [downloadWithRetryAux]
    cases h : out attempt with
    | some a => simp
    | none =>
      by_cases hn : n = 0
      · simp [hn]
      · have := ih (attempt + 1)
        simp only [if_neg hn]
        omega

theorem downloadWithRetry_all_none (out : Nat → Option Unit) (h : ∀ n, out n = none) :
    downloadWithRetry out 3 = { result := none, attempts := 3, waits := [1000, 2000] } := by
  simp [downloadWithRetry, downloadWithRetryAux, h 1, h 2, h 3, backoffDelay]

theorem downloadWithRetry_second_ok (out : Nat → Option Unit) (h1 : out 1 = none)
    (h2 : out 2 = some ()) :
    downloadWithRetry out 3 = { result := some (), attempts := 2, waits := [1000] } := by
  simp [downloadWithRetry, downloadWithRetryAux, h1, h2, backoffDelay]

/-- Claim C3 counterexample: with the rendering path available but failing on every
    attempt (and the HTTP fallback failing too), the rendering-path page fetch is
    attempted exactly once, not up to 3 times as the claim states. -/
theorem renderRetry_counterexample :
    (archivePageM pageEnvC3 true).renderAttempts = 1 ∧
    (archivePageM pageEnvC3 true).renderAttempts ≠ 3 := by
  decide

/-- Claim C3 (amended): the fallback HTTP page fetch and every asset download are
    attempted up to 3 times through downloadWithRetry, with a wait of
    min(1000 ms times 2 to the attempt minus 1, 5000 ms) after each failed non-final
    attempt, and the failure after the third attempt propagates to the caller; the
    rendering-path page fetch, however, is attempted exactly once per page, its
    failure falling back to the HTTP path instead of aborting. -/
theorem retryPolicy_amended :
    (∀ out : Nat → Option Unit, (downloadWithRetry out 3).attempts ≤ 3) ∧
    (∀ out : Nat → Option Unit, (∀ n, out n = none) →
      downloadWithRetry out 3 =
        { result := none, attempts := 3, waits := [1000, 2000] }) ∧
    (∀ out : Nat → Option Unit, out 1 = none → out 2 = some () →
      downloadWithRetry out 3 =
        { result := some (), attempts := 2, waits := [1000] }) ∧
    (∀ a : Nat, backoffDelay (a + 1) = min (1000 * 2 ^ a) 5000) ∧
    (∀ env : PageEnv, (archivePageM env true).renderAttempts = 1 ∧
      (archivePageM env true).errored = false) := by
  refine ⟨fun out => downloadWithRetryAux_attempts_le out 3 1,
    downloadWithRetry_all_none, downloadWithRetry_second_ok, fun a => by simp [backoffDelay],
    fun env => ?_⟩
  by_cases hr : env.render
  · simp [archivePageM, archivePageWithPuppeteerM, hr]
  · simp only [archivePageM, archivePageWithPuppeteerM, archivePageWithHttpM, hr]
    cases hres : (downloadWithRetry env.http 3).result <;> simp [hres]

/-- Claim C3 amended witness: the all-failures retry run at a concrete oracle. -/
theorem retryPolicy_amended_witness :
    downloadWithRetry (fun _ => none) 3 =
      { result := none, attempts := 3, waits := [1000, 2000] } :=
  retryPolicy_amended.2.1 (fun _ => none) (fun _ => rfl)

/-- Claim C10: the fallback HTTP page-archive routine never raises to its caller; on
    failure of the page download it returns an empty link list without saving a page
    record, so in HTTP-only mode the per-page error branch of the orchestrator is
    unreachable. -/
theorem httpFallback_total (env : PageEnv) :
    (archivePageWithHttpM env).errored = false ∧
    (archivePageM env false).errored = false ∧
    ((downloadWithRetry env.http 3).result = none →
      (archivePageWithHttpM env).links = [] ∧ (archivePageWithHttpM env).saved = false) := by
  refine ⟨?_, ?_, ?_⟩
  · cases hres : (downloadWithRetry env.http 3).result <;>
      simp [archivePageWithHttpM, hres]
  · cases hres : (downloadWithRetry env.http 3).result <;>
      simp [archivePageM, archivePageWithHttpM, hres]
  · intro hres
    simp [archivePageWithHttpM, hres]

/-- Claim C10 witness: a concrete environment whose page download fails on every
    attempt. -/
theorem httpFallback_total_witness :
    (archivePageWithHttpM pageEnvC10).links = [] ∧
    (archivePageWithHttpM pageEnvC10).saved = false :=
  (httpFallback_total pageEnvC10).2.2 rfl

/-- Claim C7: an asset reference resolving to a host different from the page host is left
    byte-identical in the rewritten markup and nothing is downloaded or saved. -/
theorem crossHost_untouched (host assetUrl : String) (aenv : AssetEnv) (abs : Url)
    (refs : List (String × AssetEnv)) (i : Nat)
    (hres : aenv.resolve = some abs) (hhost : abs.hostname ≠ host)
    (href : refs[i]? = some (assetUrl, aenv)) :
    downloadAndReplaceAsset host assetUrl aenv =
      { attr := assetUrl, savedPath := none } ∧
    ((processPageContentM host refs).map AssetResult.attr)[i]? = some assetUrl := by
  have hmain : downloadAndReplaceAsset host assetUrl aenv =
      { attr := assetUrl, savedPath := none } := by
    simp [downloadAndReplaceAsset, hres, hhost]
  refine ⟨hmain, ?_⟩
  simp [processPageContentM, List.getElem?_map, href, hmain]

/-- Claim C7 witness: a concrete cross-host stylesheet reference. -/
theorem crossHost_untouched_witness :
    downloadAndReplaceAsset "h" "http://cdn.other/y.css" aenvC7 =
      { attr := "http://cdn.other/y.css", savedPath := none } ∧
    ((processPageContentM "h" [("http://cdn.other/y.css", aenvC7)]).map
        AssetResult.attr)[0]? = some "http://cdn.other/y.css" :=
  crossHost_untouched "h" "http://cdn.other/y.css" aenvC7 urlC7
    [("http://cdn.other/y.css", aenvC7)] 0 rfl (by decide) rfl

/-- Claim C2 counterexample: a job whose single page fetch fails completes with
    pagesArchived equal to 1 while zero page records were appended. -/
theorem pagesArchived_counts_failed_fetch :
    (completedRecord envC2fail "https://ex.test/" "ex.test" 5).pagesArchived = 1 ∧
    (completedRecord envC2fail "https://ex.test/" "ex.test" 5).pages.length = 0 ∧
    (completedRecord envC2fail "https://ex.test/" "ex.test" 5).pagesArchived ≠
      (completedRecord envC2fail "https://ex.test/" "ex.test" 5).pages.length := by
  decide

/-- Claim C2 (amended): at completion, pagesArchived equals the size of the visited set;
    the page records are distinct and number at most pagesArchived, with equality
    exactly recovered when every visited page fetch succeeds. -/
theorem pagesArchived_amended (env : CrawlEnv) (startUrl domain : String) (fuel : Nat) :
    (completedRecord env startUrl domain fuel).status = Status.completed ∧
    (completedRecord env startUrl domain fuel).pagesArchived =
      (archiveWebsite env startUrl domain fuel).visited.length ∧
    (completedRecord env startUrl domain fuel).pages.Nodup ∧
    (completedRecord env startUrl domain fuel).pages.length ≤
      (completedRecord env startUrl domain fuel).pagesArchived ∧
    ((∀ u, (env.fetch u).isSome) →
      (completedRecord env startUrl domain fuel).pages.length =
        (completedRecord env startUrl domain fuel).pagesArchived) := by
  simp only [completedRecord, archiveWebsite]
  obtain ⟨h1, h2, h3, h4, h5⟩ :=
    crawlLoop_invariant env domain fuel [⟨startUrl, 0⟩] [] [] [] rfl (by simp)
      (by simp) (by simp) rfl
  refine ⟨trivial, trivial, ?_, ?_, ?_⟩
  · rw [h5]
    exact h2.filter _
  · rw [h5]
    exact List.length_filter_le _ _
  · intro hall
    rw [h5, List.filter_eq_self.mpr (fun u _ => hall u)]

/-- Claim C2 amended witness: with every fetch succeeding, the page-record count equals
    pagesArchived. -/
theorem pagesArchived_amended_witness :
    (completedRecord envC2ok "https://ex.test/" "ex.test" 3).pages.length =
      (completedRecord envC2ok "https://ex.test/" "ex.test" 3).pagesArchived :=
  (pagesArchived_amended envC2ok "https://ex.test/" "ex.test" 3).2.2.2.2 (fun _ => rfl)

/-- Claim C9: a URL is added to the visited set before its fetch is attempted, so a page
    whose fetch fails is still visited, is processed exactly once in the whole job,
    produces no page record, and still counts toward the recorded pagesArchived. -/
theorem visitedBeforeFetch (env : CrawlEnv) (startUrl domain : String) (fuel : Nat)
    (e : QEntry) (he : e ∈ (archiveWebsite env startUrl domain fuel).trace)
    (hf : env.fetch e.url = none) :
    e.url ∈ (archiveWebsite env startUrl domain fuel).visited ∧
    ((archiveWebsite env startUrl domain fuel).trace.map QEntry.url).count e.url = 1 ∧
    e.url ∉ (archiveWebsite env startUrl domain fuel).pages ∧
    (completedRecord env startUrl domain fuel).pagesArchived =
      (archiveWebsite env startUrl domain fuel).visited.length := by
  simp only [archiveWebsite, completedRecord] at *
  obtain ⟨h1, h2, h3, h4, h5⟩ :=
    crawlLoop_invariant env domain fuel [⟨startUrl, 0⟩] [] [] [] rfl (by simp)
      (by simp) (by simp) rfl
  have hmem : e.url ∈ (crawlLoop env domain fuel [⟨startUrl, 0⟩] [] [] []).trace.map
      QEntry.url := List.mem_map_of_mem QEntry.url he
  refine ⟨h1 ▸ hmem, ?_, ?_, trivial⟩
  · exact List.count_eq_one_of_mem (h1 ▸ h2) hmem
  · intro hpage
    rw [h5] at hpage
    have := List.of_mem_filter hpage
    rw [hf] at this
    simp at this

/-- Claim C9 witness: a concrete job whose only page fetch fails. -/
theorem visitedBeforeFetch_witness :
    "u0" ∈ (archiveWebsite envC9fail "u0" "d" 3).visited ∧
    ((archiveWebsite envC9fail "u0" "d" 3).trace.map QEntry.url).count "u0" = 1 ∧
    "u0" ∉ (archiveWebsite envC9fail "u0" "d" 3).pages ∧
    (completedRecord envC9fail "u0" "d" 3).pagesArchived =
      (archiveWebsite envC9fail "u0" "d" 3).visited.length :=
  visitedBeforeFetch envC9fail "u0" "d" 3 ⟨"u0", 0⟩ (by decide) rfl

theorem concatRecords_shape (env : CrawlEnv) :
    ∀ (us : List String), ∀ e ∈ concatRecords env us,
      (∃ u, e = JobEvent.pageRecord u) ∨ (∃ a, e = JobEvent.assetRecord a) := by
  intro us
  induction us with
  | nil => intro e he; simp [concatRecords] at he
  | cons u us ih =>
    intro e he
    rw [concatRecords, List.mem_append] at he
    rcases he with he | he
    · rw [recordsOf] at he
      cases h : env.fetch u with
      | none => rw [h] at he; simp at he
      | some pf =>
        rw [h, List.mem_append] at he
        rcases he with he | he
        · obtain ⟨a, _, rfl⟩ := List.mem_map.mp he
          exact Or.inr ⟨a, rfl⟩
        · simp only [List.mem_singleton] at he
          exact Or.inl ⟨u, he⟩
    · exact ih e he

theorem statusesOf_concatRecords (env : CrawlEnv) (us : List String) :
    statusesOf (concatRecords env us) = [] := by
  rw [statusesOf, List.filterMap_eq_nil_iff]
  intro e he
  rcases concatRecords_shape env us e he with ⟨u, rfl⟩ | ⟨a, rfl⟩ <;> rfl

theorem statusesOf_append (l1 l2 : List JobEvent) :
    statusesOf (l1 ++ l2) = statusesOf l1 ++ statusesOf l2 := by
  simp [statusesOf, List.filterMap_append]

theorem statusesOf_jobEvents (env : CrawlEnv) (startUrl domain : String) (fuel : Nat)
    (fault : Option Nat) :
    statusesOf (jobEvents env startUrl domain fuel fault) =
      [Status.pending, Status.processing, terminalOf fault] := by
  have hcons : ∀ (s : Status) (l : List JobEvent),
      statusesOf (JobEvent.setStatus s :: l) = s :: statusesOf l := fun s l => rfl
  cases fault with
  | none =>
    rw [show jobEvents env startUrl domain fuel none =
        JobEvent.setStatus Status.pending :: JobEvent.setStatus Status.processing ::
          (concatRecords env (archiveWebsite env startUrl domain fuel).pages ++
            [JobEvent.setStatus (terminalOf none)]) from rfl]
    rw [hcons, hcons, statusesOf_append, statusesOf_concatRecords]
    rfl
  | some k =>
    rw [show jobEvents env startUrl domain fuel (some k) =
        JobEvent.setStatus Status.pending :: JobEvent.setStatus Status.processing ::
          (concatRecords env ((archiveWebsite env startUrl domain fuel).pages.take k) ++
            [JobEvent.setStatus (terminalOf (some k))]) from rfl]
    rw [hcons, hcons, statusesOf_append, statusesOf_concatRecords]
    rfl

theorem jobEventsFull_restriction (env : CrawlEnv) (startUrl domain : String)
    (fuel : Nat) (fault : Option Nat) :
    jobEventsFull env startUrl domain fuel
      { processingFails := false, loopFault := fault, closeFails := false } =
      jobEvents env startUrl domain fuel fault := by
  cases fault <;> simp [jobEventsFull, jobEvents]

theorem statusesOf_jobEventsFull (env : CrawlEnv) (startUrl domain : String)
    (fuel : Nat) (faults : OrchFaults) (hpf : faults.processingFails = false) :
    statusesOf (jobEventsFull env startUrl domain fuel faults) =
      [Status.pending, Status.processing, terminalOf faults.loopFault] ++
        (if faults.closeFails then [Status.failed] else []) := by
  have hcons : ∀ (st : Status) (l : List JobEvent),
      statusesOf (JobEvent.setStatus st :: l) = st :: statusesOf l := fun _ _ => rfl
  have h1 : ∀ st : Status, statusesOf [JobEvent.setStatus st] = [st] := fun _ => rfl
  have h2 : statusesOf ([] : List JobEvent) = [] := rfl
  rw [jobEventsFull.eq_def, if_neg (by simp [hpf])]
  rw [hcons, hcons, statusesOf_append, statusesOf_append]
  cases hlf : faults.loopFault <;> cases hcf : faults.closeFails <;>
    simp [hlf, hcf, statusesOf_concatRecords, terminalOf, h1, h2]

/-- Claim C5 counterexample: with a rejecting browser teardown after the completed
    write (archiver.js line 177 rejecting, handled by the catch installed at lines
    55 to 61), the job record observably goes from completed to failed; and with a
    throwing processing write (line 88), the job goes directly from pending to
    failed, skipping processing.  Both refute the claim as stated. -/
theorem statusTransitions_counterexample :
    statusesOf (jobEventsFull envC5 "https://ex.test/" "ex.test" 3 faultsClose) =
      [Status.pending, Status.processing, Status.completed, Status.failed] ∧
    statusesOf (jobEventsFull envC5 "https://ex.test/" "ex.test" 3 faultsProcessing) =
      [Status.pending, Status.failed] := by
  decide

/-- Claim C5 (amended): the status writes begin with pending; when the processing
    update succeeds and no launched-browser teardown rejection occurs, they follow
    pending, processing, then exactly one terminal status (completed or failed) as
    the final event, with page and asset records only in between.  Two further
    sequences are observable: a rejecting teardown of a launched browser makes the
    catch installed by startArchiving write failed once more, directly after the
    terminal status (an observable completed to failed, or failed to failed,
    transition); and a throwing processing write makes the job go directly from
    pending to failed, skipping processing.  In every sequence no page or asset
    record is appended after the first terminal status. -/
theorem statusTransitions_amended (env : CrawlEnv) (startUrl domain : String)
    (fuel : Nat) (faults : OrchFaults) :
    (faults.processingFails = true →
      jobEventsFull env startUrl domain fuel faults =
        [JobEvent.setStatus Status.pending, JobEvent.setStatus Status.failed]) ∧
    (faults.processingFails = false →
      ∃ (t : Status) (mid : List JobEvent),
        (t = Status.completed ∨ t = Status.failed) ∧
        (∀ e ∈ mid, (∃ u, e = JobEvent.pageRecord u) ∨
          (∃ a, e = JobEvent.assetRecord a)) ∧
        jobEventsFull env startUrl domain fuel faults =
          JobEvent.setStatus Status.pending :: JobEvent.setStatus Status.processing ::
            (mid ++ [JobEvent.setStatus t] ++
              (if faults.closeFails then [JobEvent.setStatus Status.failed] else [])) ∧
        statusesOf (jobEventsFull env startUrl domain fuel faults) =
          [Status.pending, Status.processing, t] ++
            (if faults.closeFails then [Status.failed] else []) ∧
        (faults.closeFails = false →
          statusesOf (jobEventsFull env startUrl domain fuel faults) =
            [Status.pending, Status.processing, t])) := by
  constructor
  · intro hpf
    rw [jobEventsFull.eq_def, if_pos hpf]
  · intro hpf
    have hstat := statusesOf_jobEventsFull env startUrl domain fuel faults hpf
    refine ⟨terminalOf faults.loopFault,
      (match faults.loopFault with
        | none => concatRecords env (archiveWebsite env startUrl domain fuel).pages
        | some k =>
          concatRecords env ((archiveWebsite env startUrl domain fuel).pages.take k)),
      ?_, ?_, ?_, hstat, ?_⟩
    · cases faults.loopFault with
      | none => exact Or.inl rfl
      | some k => exact Or.inr rfl
    · intro e he
      cases hlf : faults.loopFault with
      | none =>
        rw [hlf] at he
        exact concatRecords_shape env _ e he
      | some k =>
        rw [hlf] at he
        exact concatRecords_shape env _ e he
    · rw [jobEventsFull.eq_def, if_neg (by simp [hpf])]
    · intro hcf
      rw [hstat, hcf]
      simp

/-- Claim C5 amended witness: the throwing-processing-write path at a concrete
    environment writes pending and then failed. -/
theorem statusTransitions_amended_witness :
    jobEventsFull envC5 "https://ex.test/" "ex.test" 3 faultsProcessing =
      [JobEvent.setStatus Status.pending, JobEvent.setStatus Status.failed] :=
  (statusTransitions_amended envC5 "https://ex.test/" "ex.test" 3 faultsProcessing).1
    rfl

/-- Claim C6: an asset whose download fails all 3 attempts leaves the containing page
    saved, the reference attribute for that asset still pointing at its original
    absolute URL, nothing saved for that asset, and the job terminal status is still
    completed whenever the loop exits without an orchestration fault. -/
theorem assetFailure_resilient (env : PageEnv) (i : Nat) (u : String)
    (aenv : AssetEnv) (abs : Url)
    (href : env.refs[i]? = some (u, aenv))
    (hres : aenv.resolve = some abs)
    (hhost : abs.hostname = env.host)
    (hnew : getAssetPath abs ∉ aenv.existing)
    (hdl : ∀ n, aenv.download n = none)
    (hpage : (downloadWithRetry env.http 3).result = some ()) :
    (archivePageM env false).saved = true ∧
    (archivePageM env false).attrs[i]? = some u ∧
    (downloadAndReplaceAsset env.host u aenv).savedPath = none ∧
    (∀ (cenv : CrawlEnv) (s d : String) (fuel : Nat),
      statusesOf (jobEvents cenv s d fuel none) =
        [Status.pending, Status.processing, Status.completed]) := by
  have hretry : (downloadWithRetry aenv.download 3).result = none := by
    rw [downloadWithRetry_all_none aenv.download hdl]
  have hasset : downloadAndReplaceAsset env.host u aenv =
      { attr := u, savedPath := none } := by
    rw [downloadAndReplaceAsset, hres]
    simp [hhost, hnew, hretry]
  refine ⟨?_, ?_, by rw [hasset], ?_⟩
  · simp [archivePageM, archivePageWithHttpM, hpage]
  · simp [archivePageM, archivePageWithHttpM, hpage, processPageContentM,
      List.getElem?_map, href, hasset]
  · intro cenv s d fuel
    exact statusesOf_jobEvents cenv s d fuel none

/-- Claim C6 witness: a concrete page whose single asset download always fails while the
    page body fetch succeeds. -/
theorem assetFailure_resilient_witness :
    (archivePageM pageEnvC6 false).saved = true ∧
    (archivePageM pageEnvC6 false).attrs[0]? = some "http://h/x.png" ∧
    (downloadAndReplaceAsset pageEnvC6.host "http://h/x.png" aenvC6).savedPath = none ∧
    (∀ (cenv : CrawlEnv) (s d : String) (fuel : Nat),
      statusesOf (jobEvents cenv s d fuel none) =
        [Status.pending, Status.processing, Status.completed]) :=
  assetFailure_resilient pageEnvC6 0 "http://h/x.png" aenvC6 urlC6 rfl rfl rfl
    (by decide) (fun _ => rfl) rfl

/-- Claim C4 counterexample: two asset URLs identical except for their query strings, for
    which the 8-character cleaned base64 prefixes coincide, are mapped to the same
    local path, refuting distinctness as claimed. -/
theorem assetPath_hashCollision :
    urlQ1.pathname = urlQ2.pathname ∧ urlQ1.search ≠ urlQ2.search ∧
    getAssetPath urlQ1 = getAssetPath urlQ2 := by
  decide

/-- Claim C8 counterexample: two well-formed page URLs differing only in the trailing
    slash map to two different local files, refuting the claimed collision; and two
    distinct URLs not of that form do collide, refuting collision-freeness. -/
theorem trailingSlash_counterexample :
    urlAbout.pathname = "/about" ∧ urlAboutSlash.pathname = "/about/" ∧
    getRelativePath urlAbout ≠ getRelativePath urlAboutSlash ∧
    urlA ≠ urlAHtml ∧ getRelativePath urlA = getRelativePath urlAHtml := by
  decide

theorem takeWhile_append_stop (p : Char → Bool) (l1 : List Char) (a : Char)
    (l2 : List Char) (h : p a = false) :
    (l1 ++ a :: l2).takeWhile p = l1.takeWhile p := by
  induction l1 with
  | nil => simp [List.takeWhile_cons, h]
  | cons b l1 ih => cases hb : p b <;> simp [List.takeWhile_cons, hb, ih]

theorem takeWhile_stops_within (p : Char → Bool) (l1 l2 : List Char)
    (h : ∃ x ∈ l1, p x = false) :
    (l1 ++ l2).takeWhile p = l1.takeWhile p := by
  induction l1 with
  | nil =>
    obtain ⟨x, hx, _⟩ := h
    simp at hx
  | cons b l1 ih =>
    cases hb : p b
    · simp [List.takeWhile_cons, hb]
    · obtain ⟨x, hx, hpx⟩ := h
      rcases List.mem_cons.mp hx with rfl | hx2
      · rw [hb] at hpx
        cases hpx
      · simp only [List.cons_append, List.takeWhile_cons, hb]
        rw [ih ⟨x, hx2, hpx⟩]

theorem takeWhile_eq_self_of_forall (p : Char → Bool) (l : List Char)
    (h : ∀ a ∈ l, p a = true) : l.takeWhile p = l := by
  induction l with
  | nil => rfl
  | cons b l ih =>
    simp [List.takeWhile_cons, h b (List.mem_cons_self b l),
      ih (fun a ha => h a (List.mem_cons_of_mem b ha))]

theorem afterLastSlash_no_slash (l : List Char) (h : '/' ∉ l) :
    afterLastSlashL l = l := by
  rw [afterLastSlashL, takeWhile_eq_self_of_forall, List.reverse_reverse]
  intro a ha
  rw [List.mem_reverse] at ha
  simp only [decide_eq_true_eq]
  rintro rfl
  exact h ha

theorem afterLastSlash_append (x J : List Char) :
    afterLastSlashL (x ++ '/' :: J) = afterLastSlashL J := by
  rw [afterLastSlashL, afterLastSlashL]
  have hrev : (x ++ '/' :: J).reverse = J.reverse ++ '/' :: x.reverse := by
    simp
  rw [hrev, takeWhile_append_stop _ _ _ _ (by simp)]

theorem afterLastSlash_cons_of_mem (c : Char) (rest : List Char) (h : '/' ∈ rest) :
    afterLastSlashL (c :: rest) = afterLastSlashL rest := by
  rw [afterLastSlashL, afterLastSlashL, List.reverse_cons,
    takeWhile_stops_within _ _ _ ⟨'/', List.mem_reverse.mpr h, by simp⟩]

theorem slash_not_mem_afterLastSlash (l : List Char) : '/' ∉ afterLastSlashL l := by
  intro h
  rw [afterLastSlashL, List.mem_reverse] at h
  have := List.mem_takeWhile_imp h
  simp at this

theorem slash_not_mem_extOfBase (base : List Char) (hb : '/' ∉ base) :
    '/' ∉ extOfBase base := by
  rw [extOfBase]
  by_cases h1 : base = ['.', '.']
  · simp [h1]
  · rw [if_neg h1]
    by_cases h2 : base.length ≤ (base.reverse.takeWhile (fun c => c ≠ '.')).length + 1
    · rw [if_pos h2]
      simp
    · rw [if_neg h2]
      intro hmem
      rcases List.mem_cons.mp hmem with hc | hc
      · exact absurd hc (by decide)
      · rw [List.mem_reverse] at hc
        have h3 := List.takeWhile_subset _ hc
        rw [List.mem_reverse] at h3
        exact hb h3

theorem slash_not_mem_queryHash (s : List Char) : '/' ∉ queryHashL s := by
  intro h
  rw [queryHashL] at h
  have h2 := List.take_subset _ _ h
  have h3 := (List.mem_filter.mp h2).2
  simp at h3

theorem splitOnSlash_ne_nil (l : List Char) : splitOnSlash l ≠ [] := by
  cases l with
  | nil => simp [splitOnSlash]
  | cons c rest =>
    rw [splitOnSlash]
    cases h : splitOnSlash rest with
    | nil => simp
    | cons g gs => by_cases hc : c = '/' <;> simp [hc]

theorem splitOnSlash_cons_eq (c : Char) (rest g : List Char) (gs : List (List Char))
    (h : splitOnSlash rest = g :: gs) :
    splitOnSlash (c :: rest) =
      if c = '/' then [] :: g :: gs else (c :: g) :: gs := by
  rw [splitOnSlash, h]

theorem splitOnSlash_append_slash (l1 l2 : List Char) :
    splitOnSlash (l1 ++ '/' :: l2) = splitOnSlash l1 ++ splitOnSlash l2 := by
  induction l1 with
  | nil =>
    cases h : splitOnSlash l2 with
    | nil => exact absurd h (splitOnSlash_ne_nil l2)
    | cons g gs =>
      rw [List.nil_append, splitOnSlash_cons_eq '/' l2 g gs h, if_pos rfl]
      rfl
  | cons c l1 ih =>
    cases h1 : splitOnSlash (l1 ++ '/' :: l2) with
    | nil => exact absurd h1 (splitOnSlash_ne_nil _)
    | cons g gs =>
      rw [List.cons_append, splitOnSlash_cons_eq c (l1 ++ '/' :: l2) g gs h1]
      cases h2 : splitOnSlash l1 with
      | nil => exact absurd h2 (splitOnSlash_ne_nil l1)
      | cons g2 gs2 =>
        rw [splitOnSlash_cons_eq c l1 g2 gs2 h2]
        have h3 : g :: gs = (g2 :: gs2) ++ splitOnSlash l2 := by
          rw [← h1, ← h2, ih]
        by_cases hc : c = '/'
        · rw [if_pos hc, if_pos hc, h3]
          rfl
        · rw [if_neg hc, if_neg hc]
          have hg : g = g2 ∧ gs = gs2 ++ splitOnSlash l2 := by
            rw [List.cons_append] at h3
            exact ⟨(List.cons.injEq _ _ _ _ ▸ h3).1, (List.cons.injEq _ _ _ _ ▸ h3).2⟩
          rw [hg.1, hg.2]
          rfl

theorem splitOnSlash_no_slash (l : List Char) (h : '/' ∉ l) : splitOnSlash l = [l] := by
  induction l with
  | nil => rfl
  | cons c rest ih =>
    have hc : c ≠ '/' := fun hc => h (by simp [hc])
    have hr : '/' ∉ rest := fun hr => h (List.mem_cons_of_mem c hr)
    rw [splitOnSlash_cons_eq c rest rest [] (ih hr), if_neg hc]

theorem splitOnSlash_no_slash_mem (l : List Char) :
    ∀ c ∈ splitOnSlash l, '/' ∉ c := by
  induction l with
  | nil =>
    intro c hc
    simp [splitOnSlash] at hc
    simp [hc]
  | cons a rest ih =>
    intro c hc
    cases h : splitOnSlash rest with
    | nil => exact absurd h (splitOnSlash_ne_nil rest)
    | cons g gs =>
      rw [splitOnSlash_cons_eq a rest g gs h] at hc
      by_cases ha : a = '/'
      · rw [if_pos ha] at hc
        rcases List.mem_cons.mp hc with rfl | hc2
        · simp
        · exact ih c (h ▸ hc2)
      · rw [if_neg ha] at hc
        rcases List.mem_cons.mp hc with rfl | hc2
        · intro hmem
          rcases List.mem_cons.mp hmem with h1 | h1
          · exact ha h1.symm
          · exact ih g (h ▸ List.mem_cons_self g gs) h1
        · exact ih c (h ▸ List.mem_cons_of_mem g hc2)

theorem eq_of_splitOnSlash_single : ∀ (l x : List Char), splitOnSlash l = [x] → l = x := by
  intro l
  induction l with
  | nil =>
    intro x h
    simp [splitOnSlash] at h
    exact h.symm
  | cons c rest ih =>
    intro x h
    cases hs : splitOnSlash rest with
    | nil => exact absurd hs (splitOnSlash_ne_nil rest)
    | cons g gs =>
      rw [splitOnSlash_cons_eq c rest g gs hs] at h
      by_cases hc : c = '/'
      · rw [if_pos hc] at h
        simp at h
      · rw [if_neg hc] at h
        injection h with h1 h2
        have hrest : rest = g := ih g (by rw [hs, h2])
        rw [← h1, hrest]

theorem foldl_normStep_concat (cs acc : List (List Char)) (f : List Char)
    (hne : f ≠ []) (hdot : f ≠ ['.']) (hdd : f ≠ ['.', '.']) :
    (cs ++ [f]).foldl normStep acc = f :: cs.foldl normStep acc := by
  rw [List.foldl_append, List.foldl_cons, List.foldl_nil, normStep.eq_def,
    if_neg (by simp [hne, hdot]), if_neg hdd]

theorem afterLastSlash_joinComps (f : List Char) (hf : '/' ∉ f) :
    ∀ xs : List (List Char), afterLastSlashL (joinComps (xs ++ [f])) = f
  | [] => afterLastSlash_no_slash f hf
  | [x] => by
    rw [show (([x] ++ [f] : List (List Char)) = [x, f]) from rfl,
      show joinComps [x, f] = x ++ '/' :: f from rfl, afterLastSlash_append]
    exact afterLastSlash_no_slash f hf
  | x :: y :: ys => by
    rw [show ((x :: y :: ys) ++ [f] : List (List Char)) =
        x :: ((y :: ys) ++ [f]) from rfl,
      show joinComps (x :: ((y :: ys) ++ [f])) =
        x ++ '/' :: joinComps ((y :: ys) ++ [f]) from rfl,
      afterLastSlash_append]
    exact afterLastSlash_joinComps f hf (y :: ys)

theorem getLast?_joinComps (f : List Char) (hne : f ≠ []) :
    ∀ xs : List (List Char), (joinComps (xs ++ [f])).getLast? = f.getLast?
  | [] => rfl
  | [x] => by
    rw [show joinComps ([x] ++ [f]) = x ++ '/' :: f from rfl,
      List.getLast?_append_of_ne_nil _ (by simp)]
    cases f with
    | nil => exact absurd rfl hne
    | cons a as => rw [List.getLast?_cons_cons]
  | x :: y :: ys => by
    rw [show joinComps ((x :: y :: ys) ++ [f]) =
        x ++ '/' :: joinComps ((y :: ys) ++ [f]) from rfl,
      List.getLast?_append_of_ne_nil _ (by simp)]
    have hrec := getLast?_joinComps f hne (y :: ys)
    cases hjc : joinComps ((y :: ys) ++ [f]) with
    | nil =>
      rw [hjc] at hrec
      exact absurd (List.getLast?_eq_none_iff.mp hrec.symm) hne
    | cons b bs =>
      rw [List.getLast?_cons_cons, ← hjc]
      exact hrec

theorem splitOnSlash_joinComps_last (f : List Char) (hslash : '/' ∉ f) :
    ∀ xs : List (List Char), ∃ pre, splitOnSlash (joinComps (xs ++ [f])) = pre ++ [f]
  | [] => ⟨[], by rw [show joinComps ([] ++ [f]) = f from rfl,
      splitOnSlash_no_slash f hslash]; rfl⟩
  | [x] => ⟨splitOnSlash x, by
      rw [show joinComps ([x] ++ [f]) = x ++ '/' :: f from rfl,
        splitOnSlash_append_slash, splitOnSlash_no_slash f hslash]⟩
  | x :: y :: ys => by
    obtain ⟨pre, hpre⟩ := splitOnSlash_joinComps_last f hslash (y :: ys)
    exact ⟨splitOnSlash x ++ pre, by
      rw [show joinComps ((x :: y :: ys) ++ [f]) =
          x ++ '/' :: joinComps ((y :: ys) ++ [f]) from rfl,
        splitOnSlash_append_slash, hpre, List.append_assoc]⟩

theorem afterLastSlash_joinL_core (segs : List (List Char)) (f : List Char)
    (hne : f ≠ []) (hslash : '/' ∉ f) (hdot : f ≠ ['.']) (hdd : f ≠ ['.', '.'])
    (hsplit : ∃ pre, splitOnSlash (joinedSegs segs) = pre ++ [f])
    (hlast : (joinedSegs segs).getLast? ≠ some '/') :
    afterLastSlashL (joinL segs) = f := by
  obtain ⟨pre, hpre⟩ := hsplit
  have hjoined : joinedSegs segs ≠ [] := by
    intro h0
    rw [h0] at hpre
    have h1 : (splitOnSlash ([] : List Char)).getLast? = some f := by
      rw [hpre, List.getLast?_concat]
    simp [splitOnSlash] at h1
    exact hne h1
  have hbase : afterLastSlashL (normalizedJoin segs) = f := by
    rw [normalizedJoin, hpre, foldl_normStep_concat pre [] f hne hdot hdd,
      List.reverse_cons]
    exact afterLastSlash_joinComps f hslash _
  have hb2 : afterLastSlashL (joinBase2 segs) = f := by
    rw [joinBase2]
    by_cases habs : (joinedSegs segs).head? = some '/'
    · rw [if_pos habs, show ('/' :: normalizedJoin segs : List Char) =
        [] ++ '/' :: normalizedJoin segs from rfl, afterLastSlash_append]
      exact hbase
    · rw [if_neg habs]
      exact hbase
  have hb2ne : joinBase2 segs ≠ [] := by
    intro h0
    rw [h0] at hb2
    exact hne (hb2.symm.trans rfl)
  have hb3 : joinBase3 segs = joinBase2 segs := by
    rw [joinBase3, if_neg (fun hc => hlast hc.1)]
  rw [joinL, if_neg hjoined, hb3, if_neg hb2ne]
  exact hb2

theorem afterLastSlash_joinL (segs : List (List Char)) (f : List Char)
    (hne : f ≠ []) (hslash : '/' ∉ f) (hdot : f ≠ ['.']) (hdd : f ≠ ['.', '.']) :
    afterLastSlashL (joinL (segs ++ [f])) = f := by
  have hfilter : joinedSegs (segs ++ [f]) =
      joinComps (segs.filter (fun s => s ≠ []) ++ [f]) := by
    rw [joinedSegs, List.filter_append]
    simp [hne]
  apply afterLastSlash_joinL_core _ f hne hslash hdot hdd
  · rw [hfilter]
    exact splitOnSlash_joinComps_last f hslash _
  · rw [hfilter, getLast?_joinComps f hne]
    intro hc
    exact hslash (List.mem_of_getLast?_eq_some hc)

theorem extname_index_append (p : List Char) :
    extnameL (p ++ '/' :: "index.html".toList) = ".html".toList := by
  rw [extnameL, afterLastSlash_append, afterLastSlash_no_slash _ (by decide)]
  decide

theorem getRelativePathL_slash_pair (p : List Char) (hhead : p.head? = some '/')
    (hlast : p.getLast? ≠ some '/') :
    getRelativePathL p ≠ getRelativePathL (p ++ ['/']) := by
  obtain ⟨p0, rfl⟩ : ∃ p0, p = '/' :: p0 := by
    cases p with
    | nil => simp at hhead
    | cons a rest =>
      refine ⟨rest, ?_⟩
      have ha : a = '/' := by simpa using hhead
      rw [ha]
  have hp_ne : ('/' :: p0 : List Char) ≠ ['/'] := by
    intro h0
    rw [h0] at hlast
    exact hlast rfl
  have hq_ne : ('/' :: p0 : List Char) ++ ['/'] ≠ ['/'] := by
    intro h0
    have := congrArg List.length h0
    simp at this
  have h1 : relStep1 ('/' :: p0) = '/' :: p0 := by
    rw [relStep1, if_neg hlast]
  have hB1 : relStep1 (('/' :: p0) ++ ['/']) =
      ('/' :: p0) ++ '/' :: "index.html".toList := by
    rw [relStep1, if_pos (List.getLast?_concat _), List.append_assoc]
    rfl
  have hB2 : relStep2 (('/' :: p0) ++ ['/']) =
      ('/' :: p0) ++ '/' :: "index.html".toList := by
    rw [relStep2, hB1, extname_index_append, if_neg (by decide)]
  have hBval : getRelativePathL (('/' :: p0) ++ ['/']) =
      p0 ++ '/' :: "index.html".toList := by
    rw [getRelativePathL, if_neg hq_ne, hB2,
      show (('/' :: p0) ++ '/' :: "index.html".toList : List Char) =
        '/' :: (p0 ++ '/' :: "index.html".toList) from rfl]
    rw [if_pos (show ('/' :: (p0 ++ '/' :: "index.html".toList) : List Char).head? =
      some '/' from rfl)]
    rfl
  rw [hBval]
  by_cases hext : extnameL ('/' :: p0) = []
  · have hA2 : relStep2 ('/' :: p0) = ('/' :: p0) ++ ".html".toList := by
      rw [relStep2, h1, if_pos hext]
    have hAval : getRelativePathL ('/' :: p0) = p0 ++ ".html".toList := by
      rw [getRelativePathL, if_neg hp_ne, hA2,
        show (('/' :: p0) ++ ".html".toList : List Char) =
          '/' :: (p0 ++ ".html".toList) from rfl]
      rw [if_pos (show ('/' :: (p0 ++ ".html".toList) : List Char).head? =
        some '/' from rfl)]
      rfl
    rw [hAval]
    intro heq
    have := congrArg List.length heq
    simp at this
  · have hA2 : relStep2 ('/' :: p0) = '/' :: p0 := by
      rw [relStep2, h1, if_neg hext]
    have hAval : getRelativePathL ('/' :: p0) = p0 := by
      rw [getRelativePathL, if_neg hp_ne, hA2,
        if_pos (show ('/' :: p0 : List Char).head? = some '/' from rfl)]
      rfl
    rw [hAval]
    intro heq
    have := congrArg List.length heq
    simp at this

/-- Claim C8 (amended): two page URLs that differ only in the presence of a trailing
    slash map to two distinct local files (the slashless path gains .html when it
    lacks an extension, while the slashed path gains index.html); and the mapping is
    not collision-free for other distinct well-formed URLs: a path without an
    extension collides with the same path with .html appended. -/
theorem trailingSlash_amended :
    (∀ p : List Char, p.head? = some '/' → p.getLast? ≠ some '/' →
      getRelativePathL p ≠ getRelativePathL (p ++ ['/'])) ∧
    (∀ u v : Url, u.pathname.toList.head? = some '/' →
      u.pathname.toList.getLast? ≠ some '/' → v.pathname = u.pathname ++ "/" →
      getRelativePath u ≠ getRelativePath v) ∧
    (getRelativePath urlA = getRelativePath urlAHtml ∧ urlA ≠ urlAHtml) := by
  refine ⟨getRelativePathL_slash_pair, ?_, by decide, by decide⟩
  intro u v hh hl hv heq
  apply getRelativePathL_slash_pair u.pathname.toList hh hl
  have h3 : v.pathname.toList = u.pathname.toList ++ ['/'] := by
    rw [hv]
    rfl
  have h2 := congrArg String.data heq
  rw [getRelativePath, getRelativePath] at h2
  rw [← h3]
  exact h2

/-- Claim C8 amended witness: the concrete pair of about pages, distinct local files. -/
theorem trailingSlash_amended_witness :
    getRelativePath urlAbout ≠ getRelativePath urlAboutSlash :=
  trailingSlash_amended.2.1 urlAbout urlAboutSlash (by decide) (by decide) rfl

theorem slash_not_mem_extnameL (l : List Char) : '/' ∉ extnameL l := by
  rw [extnameL]
  exact slash_not_mem_extOfBase _ (slash_not_mem_afterLastSlash l)

theorem mem_stripExtL (filename ext : List Char) (a : Char)
    (h : a ∈ stripExtL filename ext) : a ∈ filename := by
  rw [stripExtL] at h
  by_cases hc : ext ≠ [] ∧ ext.length < filename.length ∧ ext.isSuffixOf filename
  · rw [if_pos hc] at h
    exact List.take_subset _ _ h
  · rw [if_neg hc] at h
    exact h

theorem underscore_filename_regular (name h ext : List Char)
    (hn : '/' ∉ name) (hh : '/' ∉ h) (he : '/' ∉ ext) :
    (name ++ '_' :: (h ++ ext)) ≠ [] ∧ '/' ∉ name ++ '_' :: (h ++ ext) ∧
    (name ++ '_' :: (h ++ ext)) ≠ ['.'] ∧ (name ++ '_' :: (h ++ ext)) ≠ ['.', '.'] := by
  have hu : '_' ∈ name ++ '_' :: (h ++ ext) := by simp
  refine ⟨?_, ?_, ?_, ?_⟩
  · intro h0
    rw [h0] at hu
    simp at hu
  · intro hmem
    rcases List.mem_append.mp hmem with hm | hm
    · exact hn hm
    · rcases List.mem_cons.mp hm with hm1 | hm2
      · exact absurd hm1 (by decide)
      · rcases List.mem_append.mp hm2 with hm3 | hm3
        · exact hh hm3
        · exact he hm3
  · intro h0
    rw [h0] at hu
    exact absurd hu (by decide)
  · intro h0
    rw [h0] at hu
    exact absurd hu (by decide)

theorem getAssetPathL_query_distinct (p s1 s2 : List Char) (hs1 : s1 ≠ [])
    (hs2 : s2 ≠ []) (hhash : queryHashL s1 ≠ queryHashL s2) :
    getAssetPathL p s1 ≠ getAssetPathL p s2 := by
  intro heq
  rw [getAssetPathL, getAssetPathL, if_pos hs1, if_pos hs2] at heq
  have hn : '/' ∉ stripExtL (basenameL p) (extnameL (basenameL p)) := by
    intro hm
    have := mem_stripExtL _ _ _ hm
    rw [basenameL] at this
    exact slash_not_mem_afterLastSlash _ this
  obtain ⟨hne1, hsl1, hd1, hdd1⟩ := underscore_filename_regular
    (stripExtL (basenameL p) (extnameL (basenameL p))) (queryHashL s1)
    (extnameL (basenameL p)) hn (slash_not_mem_queryHash s1) (slash_not_mem_extnameL _)
  obtain ⟨hne2, hsl2, hd2, hdd2⟩ := underscore_filename_regular
    (stripExtL (basenameL p) (extnameL (basenameL p))) (queryHashL s2)
    (extnameL (basenameL p)) hn (slash_not_mem_queryHash s2) (slash_not_mem_extnameL _)
  have h1 : afterLastSlashL (joinL ["assets".toList, dirnameL p,
      stripExtL (basenameL p) (extnameL (basenameL p)) ++
        '_' :: (queryHashL s1 ++ extnameL (basenameL p))]) =
      stripExtL (basenameL p) (extnameL (basenameL p)) ++
        '_' :: (queryHashL s1 ++ extnameL (basenameL p)) :=
    afterLastSlash_joinL ["assets".toList, dirnameL p] _ hne1 hsl1 hd1 hdd1
  have h2 : afterLastSlashL (joinL ["assets".toList, dirnameL p,
      stripExtL (basenameL p) (extnameL (basenameL p)) ++
        '_' :: (queryHashL s2 ++ extnameL (basenameL p))]) =
      stripExtL (basenameL p) (extnameL (basenameL p)) ++
        '_' :: (queryHashL s2 ++ extnameL (basenameL p)) :=
    afterLastSlash_joinL ["assets".toList, dirnameL p] _ hne2 hsl2 hd2 hdd2
  have h3 := congrArg afterLastSlashL heq
  rw [h1, h2] at h3
  have h4 := List.append_cancel_left h3
  injection h4 with h5 h6
  exact hhash (List.append_cancel_right h6)

theorem slash_mem_of_splitOnSlash_two (l : List Char)
    (h : 2 ≤ (splitOnSlash l).length) : '/' ∈ l := by
  induction l with
  | nil => simp [splitOnSlash] at h
  | cons c rest ih =>
    cases hs : splitOnSlash rest with
    | nil => exact absurd hs (splitOnSlash_ne_nil rest)
    | cons g gs =>
      rw [splitOnSlash_cons_eq c rest g gs hs] at h
      by_cases hc : c = '/'
      · rw [hc]
        exact List.mem_cons_self _ _
      · rw [if_neg hc] at h
        simp only [List.length_cons] at h
        have h2 : 2 ≤ (splitOnSlash rest).length := by
          rw [hs]
          simp only [List.length_cons]
          omega
        exact List.mem_cons_of_mem c (ih h2)

theorem getLast?_splitOnSlash (l : List Char) :
    (splitOnSlash l).getLast? = some (afterLastSlashL l) := by
  induction l with
  | nil => rfl
  | cons c rest ih =>
    cases hs : splitOnSlash rest with
    | nil => exact absurd hs (splitOnSlash_ne_nil rest)
    | cons g gs =>
      rw [splitOnSlash_cons_eq c rest g gs hs]
      by_cases hc : c = '/'
      · rw [if_pos hc, List.getLast?_cons_cons, ← hs, ih, hc,
          show ('/' :: rest : List Char) = [] ++ '/' :: rest from rfl,
          afterLastSlash_append]
      · rw [if_neg hc]
        cases gs with
        | nil =>
          have hrest : rest = g := eq_of_splitOnSlash_single rest g hs
          have hnos : '/' ∉ rest := by
            rw [hrest]
            exact splitOnSlash_no_slash_mem rest g (hs ▸ List.mem_cons_self g [])
          have hno2 : '/' ∉ c :: rest := by
            intro hmem
            rcases List.mem_cons.mp hmem with h1 | h1
            · exact hc h1.symm
            · exact hnos h1
          rw [afterLastSlash_no_slash _ hno2, hrest]
          rfl
        | cons g2 gs2 =>
          have h2 : 2 ≤ (splitOnSlash rest).length := by
            rw [hs]
            simp only [List.length_cons]
            omega
          have hmem : '/' ∈ rest := slash_mem_of_splitOnSlash_two rest h2
          rw [List.getLast?_cons_cons, afterLastSlash_cons_of_mem c rest hmem, ← ih,
            hs, List.getLast?_cons_cons]

theorem basenameL_eq_afterLastSlash (p : List Char) (hlast : p.getLast? ≠ some '/') :
    basenameL p = afterLastSlashL p := by
  rw [basenameL]
  have hdw : p.reverse.dropWhile (fun c => c = '/') = p.reverse := by
    cases hr : p.reverse with
    | nil => rfl
    | cons c t =>
      rw [List.dropWhile_cons]
      have hc : ¬(c = '/') := by
        intro hc0
        apply hlast
        rw [← List.head?_reverse, hr, hc0]
        rfl
      simp [hc]
  rw [hdw, List.reverse_reverse]

theorem wfPathname_cons (p : List Char) (hwf : WfPathname p) :
    ∃ p2, p = '/' :: p2 := by
  obtain ⟨hhead, _, _⟩ := hwf
  cases p with
  | nil => simp at hhead
  | cons a rest =>
    refine ⟨rest, ?_⟩
    have ha : a = '/' := by simpa using hhead
    rw [ha]

theorem splitOnSlash_rooted (p2 : List Char) :
    splitOnSlash ('/' :: p2) = [] :: splitOnSlash p2 := by
  cases hs : splitOnSlash p2 with
  | nil => exact absurd hs (splitOnSlash_ne_nil p2)
  | cons g gs => rw [splitOnSlash_cons_eq '/' p2 g gs hs, if_pos rfl]

theorem afterLastSlash_joinL_wf (p : List Char) (hwf : WfPathname p) :
    afterLastSlashL (joinL ["assets".toList, p]) = afterLastSlashL p := by
  obtain ⟨p2, rfl⟩ := wfPathname_cons p hwf
  obtain ⟨hhead, htne, hreg⟩ := hwf
  have haft : afterLastSlashL ('/' :: p2 : List Char) = afterLastSlashL p2 := by
    rw [show ('/' :: p2 : List Char) = [] ++ '/' :: p2 from rfl, afterLastSlash_append]
  have hcorr := getLast?_splitOnSlash p2
  have hLmem : afterLastSlashL p2 ∈ splitOnSlash p2 :=
    List.mem_of_getLast?_eq_some hcorr
  have hLreg : afterLastSlashL p2 ≠ [] ∧ afterLastSlashL p2 ≠ ['.'] ∧
      afterLastSlashL p2 ≠ ['.', '.'] := by
    apply hreg
    rw [splitOnSlash_rooted]
    simpa using hLmem
  obtain ⟨hLne, hLdot, hLdd⟩ := hLreg
  have hLslash : '/' ∉ afterLastSlashL p2 := slash_not_mem_afterLastSlash p2
  have hlast2 : ('/' :: p2 : List Char).getLast? ≠ some '/' := by
    intro hl
    obtain ⟨t, ht⟩ := List.getLast?_eq_some_iff.mp hl
    have hz : afterLastSlashL ('/' :: p2 : List Char) = [] := by
      rw [ht, afterLastSlashL, List.reverse_append,
        show ((['/'] : List Char).reverse ++ t.reverse) = '/' :: t.reverse from rfl]
      simp [List.takeWhile_cons]
    rw [haft] at hz
    exact hLne hz
  have hjs : joinedSegs ["assets".toList, '/' :: p2] =
      "assets".toList ++ '/' :: ('/' :: p2) := by
    rw [joinedSegs]
    rfl
  rw [haft]
  apply afterLastSlash_joinL_core ["assets".toList, '/' :: p2] (afterLastSlashL p2)
    hLne hLslash hLdot hLdd
  · have hdrop := List.dropLast_append_getLast? (afterLastSlashL p2)
      (show afterLastSlashL p2 ∈ (splitOnSlash p2).getLast? by rw [hcorr]; rfl)
    refine ⟨["assets".toList, []] ++ (splitOnSlash p2).dropLast, ?_⟩
    rw [hjs, splitOnSlash_append_slash, splitOnSlash_no_slash _ (by decide),
      splitOnSlash_rooted, ← hdrop]
    simp
  · rw [hjs, List.getLast?_append_of_ne_nil _ (by simp)]
    intro hl
    apply hlast2
    rw [← hl, List.getLast?_cons_cons]

theorem wf_no_trailing_slash (p : List Char) (hwf : WfPathname p) :
    p.getLast? ≠ some '/' := by
  obtain ⟨p2, rfl⟩ := wfPathname_cons p hwf
  obtain ⟨hhead, htne, hreg⟩ := hwf
  have haft : afterLastSlashL ('/' :: p2 : List Char) = afterLastSlashL p2 := by
    rw [show ('/' :: p2 : List Char) = [] ++ '/' :: p2 from rfl, afterLastSlash_append]
  have hmem : afterLastSlashL p2 ∈ (splitOnSlash ('/' :: p2)).tail := by
    rw [splitOnSlash_rooted]
    simpa using List.mem_of_getLast?_eq_some (getLast?_splitOnSlash p2)
  have hLne := (hreg _ hmem).1
  intro hl
  obtain ⟨t, ht⟩ := List.getLast?_eq_some_iff.mp hl
  have hz : afterLastSlashL ('/' :: p2 : List Char) = [] := by
    rw [ht, afterLastSlashL, List.reverse_append,
      show ((['/'] : List Char).reverse ++ t.reverse) = '/' :: t.reverse from rfl]
    simp [List.takeWhile_cons]
  rw [haft] at hz
  exact hLne hz

theorem getAssetPathL_query_vs_plain (p s : List Char) (hwf : WfPathname p)
    (hs : s ≠ []) : getAssetPathL p s ≠ getAssetPathL p [] := by
  intro heq
  rw [getAssetPathL, getAssetPathL, if_pos hs, if_neg (by simp)] at heq
  have hn : '/' ∉ stripExtL (basenameL p) (extnameL (basenameL p)) := by
    intro hm
    have := mem_stripExtL _ _ _ hm
    rw [basenameL] at this
    exact slash_not_mem_afterLastSlash _ this
  obtain ⟨hne1, hsl1, hd1, hdd1⟩ := underscore_filename_regular
    (stripExtL (basenameL p) (extnameL (basenameL p))) (queryHashL s)
    (extnameL (basenameL p)) hn (slash_not_mem_queryHash s) (slash_not_mem_extnameL _)
  have h2 : afterLastSlashL (joinL ["assets".toList, dirnameL p,
      stripExtL (basenameL p) (extnameL (basenameL p)) ++
        '_' :: (queryHashL s ++ extnameL (basenameL p))]) =
      stripExtL (basenameL p) (extnameL (basenameL p)) ++
        '_' :: (queryHashL s ++ extnameL (basenameL p)) :=
    afterLastSlash_joinL ["assets".toList, dirnameL p] _ hne1 hsl1 hd1 hdd1
  have h1 := afterLastSlash_joinL_wf p hwf
  have h3 := congrArg afterLastSlashL heq
  rw [h2, h1] at h3
  have hbn : basenameL p = afterLastSlashL p :=
    basenameL_eq_afterLastSlash p (wf_no_trailing_slash p hwf)
  rw [← hbn] at h3
  have hlen := congrArg List.length h3
  rw [List.length_append, List.length_cons, List.length_append, stripExtL] at hlen
  by_cases hc : extnameL (basenameL p) ≠ [] ∧
      (extnameL (basenameL p)).length < (basenameL p).length ∧
      (extnameL (basenameL p)).isSuffixOf (basenameL p)
  · rw [if_pos hc, List.length_take] at hlen
    omega
  · rw [if_neg hc] at hlen
    omega

/-- Claim C4 (amended): the asset-path derivation is deterministic, depending only on the
    pathname and query of the URL; for two asset URLs identical except for the query
    string, the derived paths are distinct whenever both have queries whose folded
    8-character hashes differ, and (for a well-formed pathname) whenever exactly one
    of the two has a query; distinct queries whose 8-character base64 prefixes
    coincide, however, collide, as the counterexample shows. -/
theorem assetPath_amended :
    (∀ u v : Url, u.pathname = v.pathname → u.search = v.search →
      getAssetPath u = getAssetPath v) ∧
    (∀ u v : Url, u.pathname = v.pathname → u.search ≠ "" → v.search ≠ "" →
      queryHashL u.search.toList ≠ queryHashL v.search.toList →
      getAssetPath u ≠ getAssetPath v) ∧
    (∀ u v : Url, u.pathname = v.pathname → WfPathname u.pathname.toList →
      u.search ≠ "" → v.search = "" → getAssetPath u ≠ getAssetPath v) := by
  refine ⟨?_, ?_, ?_⟩
  · intro u v hp hs
    rw [getAssetPath, getAssetPath, hp, hs]
  · intro u v hp hu hv hhash heq
    have hL : getAssetPathL u.pathname.toList u.search.toList =
        getAssetPathL v.pathname.toList v.search.toList := congrArg String.data heq
    rw [hp] at hL
    have h1 : u.search.toList ≠ [] := fun h0 => hu (String.ext h0)
    have h2 : v.search.toList ≠ [] := fun h0 => hv (String.ext h0)
    exact getAssetPathL_query_distinct v.pathname.toList _ _ h1 h2 hhash hL
  · intro u v hp hwf hu hv heq
    have hL : getAssetPathL u.pathname.toList u.search.toList =
        getAssetPathL v.pathname.toList v.search.toList := congrArg String.data heq
    rw [hp] at hL hwf
    rw [hv] at hL
    have h1 : u.search.toList ≠ [] := fun h0 => hu (String.ext h0)
    exact getAssetPathL_query_vs_plain v.pathname.toList u.search.toList hwf h1 hL

/-- Claim C4 amended witness: two version queries with different hashes give distinct
    local paths. -/
theorem assetPath_amended_witness : getAssetPath urlQv1 ≠ getAssetPath urlQv2 :=
  assetPath_amended.2.1 urlQv1 urlQv2 rfl (by decide) (by decide) (by decide)
